import Mathlib

/-!
Verification of the core logic of a YouTube transcript and comments fetcher:
the SRT subtitle normalizer `parse_srt_contents` and the subtitle-file
language selection step of `fetch_transcript`, both from `app.py`.

Python line- and whitespace-level string operations (`str.splitlines`,
`str.strip`, `str.split`) are modelled on the underlying character lists of
Lean strings. Decimal digits are modelled as the ASCII digits.
-/

/-- Whitespace recognizer mirroring the character class stripped by
Python str.strip. -/
def pyIsSpace (c : Char) : Bool :=
  let n := c.toNat
  (decide (9 ≤ n) && decide (n ≤ 13)) || decide (n = 32) ||
  (decide (28 ≤ n) && decide (n ≤ 31)) || decide (n = 0x85) || decide (n = 0xA0) ||
  decide (n = 0x1680) || (decide (0x2000 ≤ n) && decide (n ≤ 0x200A)) ||
  decide (n = 0x2028) || decide (n = 0x2029) || decide (n = 0x202F) ||
  decide (n = 0x205F) || decide (n = 0x3000)

/-- Line-boundary characters of Python str.splitlines. -/
def isLineBreak (c : Char) : Bool :=
  let n := c.toNat
  decide (n = 10) || decide (n = 11) || decide (n = 12) || decide (n = 13) ||
  (decide (28 ≤ n) && decide (n ≤ 30)) || decide (n = 0x85) ||
  decide (n = 0x2028) || decide (n = 0x2029)

/-- Python str.splitlines on a character list: split at line boundaries, a
carriage return directly followed by a line feed counting as one boundary,
and with no trailing empty line after a final boundary. -/
def pySplitlines : List Char → List (List Char)
  | [] => []
  | '\r' :: '\n' :: rest => [] :: pySplitlines rest
  | c :: rest =>
    if isLineBreak c then [] :: pySplitlines rest
    else
      match pySplitlines rest with
      | [] => [[c]]
      | line :: lines => (c :: line) :: lines

/-- Python str.strip on a character list: drop leading and trailing
whitespace. -/
def pyStrip (l : List Char) : List Char :=
  ((l.dropWhile pyIsSpace).reverse.dropWhile pyIsSpace).reverse

/-- The digits-only test applied by parse_srt_contents to a stripped line
(a regular-expression match of one or more digits spanning the whole line):
the line is nonempty and every character is a decimal digit. -/
def matchDigits (l : List Char) : Bool :=
  !l.isEmpty && l.all Char.isDigit

/-- Recognizer for a character list beginning with the three characters of
the timestamp marker. -/
def startsArrow : List Char → Bool
  | '-' :: '-' :: '>' :: _ => true
  | _ => false

/-- Containment of the timestamp marker as a substring of the line,
mirroring the Python substring membership test of the marker. -/
def hasArrow : List Char → Bool
  | [] => false
  | c :: rest => startsArrow (c :: rest) || hasArrow rest

/-- The filtering loop of parse_srt_contents, from app.py lines 209 to 217:
skip a line whose stripped form is empty, skip a line whose stripped form is
one or more digits, skip a line containing the timestamp marker, and
otherwise keep the stripped line. -/
def transcriptLines : List (List Char) → List (List Char)
  | [] => []
  | line :: rest =>
    if pyStrip line = [] then transcriptLines rest
    else if matchDigits (pyStrip line) then transcriptLines rest
    else if hasArrow line then transcriptLines rest
    else pyStrip line :: transcriptLines rest

/-- Joining a list of lines with a single newline and no trailing
separator, mirroring the Python newline join. -/
def joinNL : List (List Char) → List Char
  | [] => []
  | [l] => l
  | l :: rest => l ++ '\n' :: joinNL rest

/-- Character-list core of parse_srt_contents: split into lines, filter and
strip them, join with newlines. -/
def parseChars (l : List Char) : List Char :=
  joinNL (transcriptLines (pySplitlines l))

/-- Embedding of parse_srt_contents from app.py lines 189 to 218: convert the
raw contents of an SRT subtitle file into plain text by discarding sequence
counters, timestamp lines and blank lines and keeping the stripped text
lines. -/
def parse_srt_contents (contents : String) : String :=
  ⟨parseChars contents.data⟩

/-- Reference normalizer following the specification text of the algorithm:
scan the input line by line; discard a line whose trimmed form is empty;
discard a line whose trimmed form consists only of decimal digits; discard a
line containing the marker substring; otherwise keep the trimmed line; emit
kept lines joined by a single newline, in original order, with no trailing
separator. -/
def referenceNormalize (contents : String) : String :=
  ⟨joinNL ((pySplitlines contents.data).filterMap (fun line =>
    if pyStrip line = [] then none
    else if (pyStrip line).all Char.isDigit then none
    else if hasArrow line then none
    else some (pyStrip line)))⟩

/-- Python str.split with a dot separator. -/
def splitDot : List Char → List (List Char)
  | [] => [[]]
  | '.' :: rest => [] :: splitDot rest
  | c :: rest =>
    match splitDot rest with
    | [] => [[c]]
    | p :: ps => (c :: p) :: ps

/-- A discovered subtitle file: its file name and its raw contents. -/
structure Candidate where
  name : String
  contents : String
deriving DecidableEq

/-- Language code read off a subtitle file name of the expected form
id.lang.srt, as in app.py lines 339 to 341 and 350 to 351: split the name at
dots; when there are at least three parts the code is the next-to-last part,
otherwise no code is determined. -/
def tagOf (name : String) : Option String :=
  let parts := splitDot name.data
  if 3 ≤ parts.length then some ⟨parts.getD (parts.length - 2) []⟩ else none

/-- The exact-match scan of fetch_transcript, app.py lines 338 to 345: walk
the discovered files in order; the first file whose name yields a language
code equal to the requested language is selected and the scan stops; a file
whose name splits into fewer than three dot-separated parts is skipped. -/
def scanExact (language : String) : List Candidate → Option Candidate
  | [] => none
  | f :: rest =>
    match tagOf f.name with
    | some t => if t = language then some f else scanExact language rest
    | none => scanExact language rest

/-- The selection step of fetch_transcript, app.py lines 334 to 351: run the
exact-match scan; on failure fall back to the first discovered file,
reporting its own language code when determinable and the requested language
otherwise; with no files, report an empty language and no selection. -/
def selectSubtitle (language : String) (files : List Candidate) :
    String × Option Candidate :=
  match scanExact language files with
  | some f => (language, some f)
  | none =>
    match files with
    | [] => ("", none)
    | f :: _ => ((tagOf f.name).getD language, some f)

/-- Composition performed by fetch_transcript after selection, app.py lines
353 to 359: the selected file's contents are normalized; no selection yields
an empty transcript. -/
def fetchResult (language : String) (files : List Candidate) : String × String :=
  match selectSubtitle language files with
  | (lang, some f) => (lang, parse_srt_contents f.contents)
  | (lang, none) => (lang, "")

/-- Modelled from the spec: the per-tag candidate scan used by the
auto-detect selection mode of the Language Selector. The auto-detect mode is
described in the specification's Language Selector contract but is not
present in src/app.py. Find the first candidate whose language code equals
the given tag. -/
def findByTag (tag : String) (cands : List Candidate) : Option Candidate :=
  cands.find? (fun d => tagOf d.name == some tag)

/-- Modelled from the spec: the nested scan of the auto-detect selection
mode, not present in src/app.py. Iterate the priority list in order; for
each preferred tag scan the candidate set for a match; the first match found
across the nested scan wins. -/
def firstPriorityMatch : List String → List Candidate → Option (String × Candidate)
  | [], _ => none
  | p :: ps, cands =>
    match findByTag p cands with
    | some c => some (p, c)
    | none => firstPriorityMatch ps cands

/-- Modelled from the spec: the auto-detect selection mode of the Language
Selector, not present in src/app.py. Take the first priority-list match; if
no priority tag matches any candidate fall back to the first candidate in
enumeration order, tagged unknown when its code cannot be determined from
its naming pattern and with its actual code otherwise; with no candidates,
no selection. -/
def selectAuto (priority : List String) (cands : List Candidate) :
    String × Option Candidate :=
  match firstPriorityMatch priority cands with
  | some (p, c) => (p, some c)
  | none =>
    match cands with
    | [] => ("", none)
    | c :: _ => ((tagOf c.name).getD "unknown", some c)

/-- Unfolding of pySplitlines on a list headed by a non-boundary character. -/
theorem pySplitlines_cons (c : Char) (rest : List Char) (h : isLineBreak c = false) :
    pySplitlines (c :: rest) =
      match pySplitlines rest with
      | [] => [[c]]
      | line :: lines => (c :: line) :: lines := by
  have hc : c ≠ '\r' := by
    rintro rfl
    simp [isLineBreak] at h
  rw [pySplitlines.eq_def]
  split
  · rename_i heq
    simp at heq
  · rename_i rest2 heq
    rw [List.cons.injEq] at heq
    exact absurd heq.1 hc
  · rename_i c2 rest2 hne heq
    rw [List.cons.injEq] at heq
    obtain ⟨rfl, rfl⟩ := heq
    rw [if_neg (by simp [h])]

/-- Characters of a line produced by pySplitlines are never line
boundaries. -/
theorem pySplitlines_no_break (l : List Char) :
    ∀ line ∈ pySplitlines l, ∀ c ∈ line, isLineBreak c = false := by
  induction l using pySplitlines.induct with
  | case1 => simp [pySplitlines]
  | case2 rest ih =>
    intro line hline
    simp only [pySplitlines, List.mem_cons] at hline
    rcases hline with rfl | hline
    · simp
    · exact ih line hline
  | case3 c rest h1 h2 ih =>
    intro line hline
    simp only [pySplitlines, h2, if_true] at hline
    rcases List.mem_cons.mp hline with rfl | hline
    · simp
    · exact ih line hline
  | case4 c rest h1 h2 heq ih =>
    intro line hline
    rw [pySplitlines_cons c rest (by simpa using h2), heq] at hline
    rcases List.mem_cons.mp hline with rfl | hline
    · intro d hd
      rcases List.mem_singleton.mp hd with rfl
      simpa using h2
    · simp at hline
  | case5 c rest h1 h2 line lines heq ih =>
    intro line2 hline2
    rw [pySplitlines_cons c rest (by simpa using h2), heq] at hline2
    rcases List.mem_cons.mp hline2 with rfl | hline2
    · intro d hd
      rcases List.mem_cons.mp hd with rfl | hd
      · simpa using h2
      · exact ih (line) (by rw [heq]; exact List.mem_cons_self _ _) d hd
    · exact ih line2 (by rw [heq]; exact List.mem_cons_of_mem _ hline2)

/-- pySplitlines keeps a nonempty boundary-free list as a single line. -/
theorem pySplitlines_single (l : List Char)
    (hfree : ∀ c ∈ l, isLineBreak c = false) (hne : l ≠ []) :
    pySplitlines l = [l] := by
  induction l with
  | nil => exact absurd rfl hne
  | cons c rest ih =>
    rw [pySplitlines_cons c rest (hfree c (List.mem_cons_self _ _))]
    rcases List.eq_nil_or_concat rest with rfl | _
    · simp [pySplitlines]
    · have hrest : rest ≠ [] → pySplitlines rest = [rest] :=
        fun h => ih (fun d hd => hfree d (List.mem_cons_of_mem _ hd)) h
      cases hrest2 : rest with
      | nil => simp [pySplitlines]
      | cons d ds =>
        rw [← hrest2, hrest (by rw [hrest2]; exact List.cons_ne_nil _ _)]

/-- Splitting a boundary-free line followed by a newline and more input
yields that line followed by the lines of the remaining input. -/
theorem pySplitlines_append_newline (line rest : List Char)
    (hfree : ∀ c ∈ line, isLineBreak c = false) :
    pySplitlines (line ++ '\n' :: rest) = line :: pySplitlines rest := by
  induction line with
  | nil =>
    rw [List.nil_append, pySplitlines.eq_def]
    split
    · rename_i heq
      simp at heq
    · rename_i rest2 heq
      simp at heq
    · rename_i c2 rest2 hne heq
      rw [List.cons.injEq] at heq
      obtain ⟨rfl, rfl⟩ := heq
      rw [if_pos (by simp [isLineBreak])]
  | cons c line2 ih =>
    rw [List.cons_append,
      pySplitlines_cons c _ (hfree c (List.mem_cons_self _ _)),
      ih (fun d hd => hfree d (List.mem_cons_of_mem _ hd))]

/-- Round trip: rejoining nonempty boundary-free lines with newlines and
splitting again recovers the same lines. -/
theorem pySplitlines_joinNL (ls : List (List Char))
    (h : ∀ l ∈ ls, l ≠ [] ∧ ∀ c ∈ l, isLineBreak c = false) :
    pySplitlines (joinNL ls) = ls := by
  induction ls with
  | nil => rfl
  | cons l ls2 ih =>
    cases ls2 with
    | nil =>
      have hl := h l (List.mem_cons_self _ _)
      simpa [joinNL] using pySplitlines_single l hl.2 hl.1
    | cons l2 ls3 =>
      have hl := h l (List.mem_cons_self _ _)
      have hjoin : joinNL (l :: l2 :: ls3) = l ++ '\n' :: joinNL (l2 :: ls3) := rfl
      rw [hjoin, pySplitlines_append_newline l _ hl.2,
        ih (fun d hd => h d (List.mem_cons_of_mem _ hd))]

/-- Dropping a matching prefix twice drops it once. -/
theorem dropWhile_twice (p : Char → Bool) (l : List Char) :
    (l.dropWhile p).dropWhile p = l.dropWhile p := by
  induction l with
  | nil => rfl
  | cons c rest ih =>
    by_cases h : p c = true
    · simp [List.dropWhile_cons, h, ih]
    · simp [List.dropWhile_cons, h]

/-- The head of a dropWhile result does not satisfy the dropped predicate. -/
theorem dropWhile_head (p : Char → Bool) (l : List Char) (c : Char) (rest : List Char)
    (h : l.dropWhile p = c :: rest) : p c = false := by
  induction l with
  | nil => simp at h
  | cons a l2 ih =>
    rw [List.dropWhile_cons] at h
    by_cases ha : p a = true
    · rw [if_pos ha] at h
      exact ih h
    · rw [if_neg ha] at h
      injection h with h1 h2
      subst h1
      simpa using ha

/-- A stripped line sits inside the original line between a whitespace
prefix and a whitespace suffix. -/
theorem pyStrip_decomp (l : List Char) :
    ∃ pre post, l = pre ++ pyStrip l ++ post := by
  refine ⟨l.takeWhile pyIsSpace,
    ((l.dropWhile pyIsSpace).reverse.takeWhile pyIsSpace).reverse, ?_⟩
  conv_lhs => rw [← List.takeWhile_append_dropWhile (p := pyIsSpace) (l := l)]
  rw [List.append_assoc]
  congr 1
  conv_lhs => rw [← List.reverse_reverse (l.dropWhile pyIsSpace),
    ← List.takeWhile_append_dropWhile (p := pyIsSpace)
      (l := (l.dropWhile pyIsSpace).reverse)]
  rw [List.reverse_append]
  rfl

/-- Membership in a stripped line implies membership in the line. -/
theorem pyStrip_mem (l : List Char) (c : Char) (h : c ∈ pyStrip l) : c ∈ l := by
  obtain ⟨pre, post, hd⟩ := pyStrip_decomp l
  rw [hd]
  simp [h]

/-- The head of a nonempty stripped line is not whitespace. -/
theorem pyStrip_head (l : List Char) (c : Char) (rest : List Char)
    (h : pyStrip l = c :: rest) : pyIsSpace c = false := by
  have hB : l.dropWhile pyIsSpace
      = pyStrip l ++ ((l.dropWhile pyIsSpace).reverse.takeWhile pyIsSpace).reverse := by
    conv_lhs => rw [← List.reverse_reverse (l.dropWhile pyIsSpace),
      ← List.takeWhile_append_dropWhile (p := pyIsSpace)
        (l := (l.dropWhile pyIsSpace).reverse)]
    rw [List.reverse_append]
    rfl
  rw [h, List.cons_append] at hB
  exact dropWhile_head pyIsSpace l c _ hB

/-- Stripping is idempotent. -/
theorem pyStrip_idem (l : List Char) : pyStrip (pyStrip l) = pyStrip l := by
  have h1 : (pyStrip l).dropWhile pyIsSpace = pyStrip l := by
    cases hC : pyStrip l with
    | nil => rfl
    | cons c rest =>
      rw [List.dropWhile_cons, if_neg (by simp [pyStrip_head l c rest hC])]
  show (((pyStrip l).dropWhile pyIsSpace).reverse.dropWhile pyIsSpace).reverse = pyStrip l
  rw [h1]
  show (((l.dropWhile pyIsSpace).reverse.dropWhile
    pyIsSpace).reverse.reverse.dropWhile pyIsSpace).reverse = pyStrip l
  rw [List.reverse_reverse, dropWhile_twice]
  rfl

/-- A character list starts with the marker exactly when it literally has
the three marker characters in front. -/
theorem startsArrow_iff (l : List Char) :
    startsArrow l = true ↔ ∃ t, l = '-' :: '-' :: '>' :: t := by
  constructor
  · intro h
    rw [startsArrow.eq_def] at h
    split at h
    · rename_i t
      exact ⟨t, rfl⟩
    · simp at h
  · rintro ⟨t, rfl⟩
    rfl

/-- The marker containment test holds exactly when the marker occurs as a
contiguous substring. -/
theorem hasArrow_iff (l : List Char) :
    hasArrow l = true ↔ ∃ pre post, l = pre ++ '-' :: '-' :: '>' :: post := by
  induction l with
  | nil =>
    rw [show hasArrow [] = false from rfl]
    simp only [Bool.false_eq_true, false_iff]
    rintro ⟨pre, post, h⟩
    simp at h
  | cons c rest ih =>
    rw [show hasArrow (c :: rest) = (startsArrow (c :: rest) || hasArrow rest) from rfl,
      Bool.or_eq_true, startsArrow_iff, ih]
    constructor
    · rintro (⟨t, ht⟩ | ⟨pre, post, hp⟩)
      · exact ⟨[], t, by simpa using ht⟩
      · exact ⟨c :: pre, post, by simp [hp]⟩
    · rintro ⟨pre, post, hp⟩
      cases pre with
      | nil => exact Or.inl ⟨post, by simpa using hp⟩
      | cons a pre2 =>
        right
        rw [List.cons_append, List.cons.injEq] at hp
        exact ⟨pre2, post, hp.2⟩

/-- A substring of a marker-free line is marker-free. -/
theorem hasArrow_mono (pre mid post : List Char)
    (h : hasArrow (pre ++ mid ++ post) = false) : hasArrow mid = false := by
  by_contra hmid
  rw [Bool.not_eq_false] at hmid
  obtain ⟨p2, q2, rfl⟩ := (hasArrow_iff mid).mp hmid
  have htrue : hasArrow (pre ++ (p2 ++ '-' :: '-' :: '>' :: q2) ++ post) = true :=
    (hasArrow_iff _).mpr ⟨pre ++ p2, q2 ++ post, by simp⟩
  rw [htrue] at h
  cases h

/-- Stripping a marker-free line keeps it marker-free. -/
theorem hasArrow_pyStrip (l : List Char) (h : hasArrow l = false) :
    hasArrow (pyStrip l) = false := by
  obtain ⟨pre, post, hd⟩ := pyStrip_decomp l
  rw [hd] at h
  exact hasArrow_mono pre _ post h

/-- The digits-only test on a nonempty list is the all-digits test. -/
theorem matchDigits_of_ne_nil (l : List Char) (h : l ≠ []) :
    matchDigits l = l.all Char.isDigit := by
  cases l with
  | nil => exact absurd rfl h
  | cons c t => simp [matchDigits]

/-- Every kept line of the filtering loop is the strip of some input line
that passed all three skip tests. -/
theorem transcriptLines_mem (ls : List (List Char)) (k : List Char)
    (h : k ∈ transcriptLines ls) :
    ∃ orig, orig ∈ ls ∧ k = pyStrip orig ∧ pyStrip orig ≠ [] ∧
      matchDigits (pyStrip orig) = false ∧ hasArrow orig = false := by
  induction ls with
  | nil => simp [transcriptLines] at h
  | cons line rest ih =>
    rw [transcriptLines] at h
    by_cases h1 : pyStrip line = []
    · rw [if_pos h1] at h
      obtain ⟨o, ho, hrest⟩ := ih h
      exact ⟨o, List.mem_cons_of_mem _ ho, hrest⟩
    · rw [if_neg h1] at h
      by_cases h2 : matchDigits (pyStrip line) = true
      · rw [if_pos h2] at h
        obtain ⟨o, ho, hrest⟩ := ih h
        exact ⟨o, List.mem_cons_of_mem _ ho, hrest⟩
      · rw [if_neg h2] at h
        by_cases h3 : hasArrow line = true
        · rw [if_pos h3] at h
          obtain ⟨o, ho, hrest⟩ := ih h
          exact ⟨o, List.mem_cons_of_mem _ ho, hrest⟩
        · rw [if_neg h3] at h
          rcases List.mem_cons.mp h with rfl | h4
          · exact ⟨line, List.mem_cons_self _ _, rfl, h1,
              by simpa using h2, by simpa using h3⟩
          · obtain ⟨o, ho, hrest⟩ := ih h4
            exact ⟨o, List.mem_cons_of_mem _ ho, hrest⟩

/-- Lines already stripped, nonempty, not digits-only and marker-free pass
the filtering loop unchanged. -/
theorem transcriptLines_fixpoint (ls : List (List Char))
    (h : ∀ l ∈ ls, pyStrip l = l ∧ l ≠ [] ∧
      matchDigits l = false ∧ hasArrow l = false) :
    transcriptLines ls = ls := by
  induction ls with
  | nil => rfl
  | cons line rest ih =>
    obtain ⟨hs, hne, hd, ha⟩ := h line (List.mem_cons_self _ _)
    rw [transcriptLines, if_neg (by rw [hs]; exact hne),
      if_neg (by rw [hs, hd]; simp), if_neg (by rw [ha]; simp), hs,
      ih (fun l hl => h l (List.mem_cons_of_mem _ hl))]

/-- Properties of every kept line of the normalizer: stripped, nonempty,
not digits-only, marker-free and free of line boundaries. -/
theorem keptLine_props (x : List Char) (k : List Char)
    (h : k ∈ transcriptLines (pySplitlines x)) :
    pyStrip k = k ∧ k ≠ [] ∧ matchDigits k = false ∧ hasArrow k = false ∧
      ∀ c ∈ k, isLineBreak c = false := by
  obtain ⟨orig, ho, rfl, hne, hd, ha⟩ := transcriptLines_mem _ _ h
  refine ⟨pyStrip_idem orig, hne, hd, hasArrow_pyStrip orig ha, ?_⟩
  intro c hc
  exact pySplitlines_no_break x orig ho c (pyStrip_mem orig c hc)

/-- Splitting the normalizer's output recovers exactly the kept lines. -/
theorem parseChars_lines (x : List Char) :
    pySplitlines (parseChars x) = transcriptLines (pySplitlines x) := by
  unfold parseChars
  apply pySplitlines_joinNL
  intro l hl
  obtain ⟨hs, hne, hd, ha, hb⟩ := keptLine_props x l hl
  exact ⟨hne, hb⟩

/-- Joining nonempty lines yields the empty list only for no lines. -/
theorem joinNL_eq_nil (ls : List (List Char)) (h : ∀ l ∈ ls, l ≠ [])
    (hj : joinNL ls = []) : ls = [] := by
  cases ls with
  | nil => rfl
  | cons l rest =>
    cases rest with
    | nil => exact absurd hj (h l (List.mem_cons_self _ _))
    | cons l2 rest2 =>
      rw [show joinNL (l :: l2 :: rest2) = l ++ '\n' :: joinNL (l2 :: rest2) from rfl] at hj
      simp at hj

/-- The character-list normalizer is idempotent. -/
theorem parseChars_idem (x : List Char) :
    parseChars (parseChars x) = parseChars x := by
  conv_lhs => rw [parseChars]
  rw [parseChars_lines, transcriptLines_fixpoint]
  · rfl
  · intro l hl
    obtain ⟨hs, hne, hd, ha, hb⟩ := keptLine_props x l hl
    exact ⟨hs, hne, hd, ha⟩

/-- The filtering loop is the filterMap of the per-line classification used
by the specification's reference algorithm. -/
theorem transcriptLines_eq_filterMap (ls : List (List Char)) :
    transcriptLines ls = ls.filterMap (fun line =>
      if pyStrip line = [] then none
      else if (pyStrip line).all Char.isDigit then none
      else if hasArrow line then none
      else some (pyStrip line)) := by
  induction ls with
  | nil => rfl
  | cons line rest ih =>
    rw [transcriptLines, List.filterMap_cons]
    by_cases h1 : pyStrip line = []
    · simp only [if_pos h1]
      exact ih
    · rw [matchDigits_of_ne_nil _ h1]
      by_cases h2 : (pyStrip line).all Char.isDigit = true
      · simp only [if_neg h1, if_pos h2]
        exact ih
      · by_cases h3 : hasArrow line = true
        · simp only [if_neg h1, if_neg h2, if_pos h3]
          exact ih
        · simp only [if_neg h1, if_neg h2, if_neg h3, ih]

/-- The exact-match scan returns the first file whose language code equals
the request, phrased through filter. -/
theorem scanExact_eq_head_filter (language : String) (files : List Candidate) :
    scanExact language files =
      (files.filter (fun f => decide (tagOf f.name = some language))).head? := by
  induction files with
  | nil => rfl
  | cons f rest ih =>
    rw [scanExact, List.filter_cons]
    cases ht : tagOf f.name with
    | none =>
      rw [if_neg (by simp [ht])]
      exact ih
    | some t =>
      dsimp only
      by_cases hlang : t = language
      · subst hlang
        rw [if_pos rfl, if_pos (by simp [ht])]
        rfl
      · rw [if_neg hlang, if_neg (by simp [ht, hlang])]
        exact ih

/-- The exact-match scan fails when no file's language code matches. -/
theorem scanExact_none (language : String) (files : List Candidate)
    (h : ∀ f ∈ files, tagOf f.name ≠ some language) :
    scanExact language files = none := by
  induction files with
  | nil => rfl
  | cons f rest ih =>
    rw [scanExact]
    cases ht : tagOf f.name with
    | none => exact ih (fun g hg => h g (List.mem_cons_of_mem _ hg))
    | some t =>
      have hne : t ≠ language := fun he => h f (List.mem_cons_self _ _) (by rw [ht, he])
      dsimp only
      rw [if_neg hne]
      exact ih (fun g hg => h g (List.mem_cons_of_mem _ hg))

/-- The exact-match scan finds a matching file placed after non-matching
ones and stops there. -/
theorem scanExact_append (language : String) (c : Candidate) (post : List Candidate)
    (hc : tagOf c.name = some language) :
    ∀ pre : List Candidate, (∀ d ∈ pre, tagOf d.name ≠ some language) →
    scanExact language (pre ++ c :: post) = some c := by
  intro pre
  induction pre with
  | nil =>
    intro _
    rw [List.nil_append, scanExact, hc]
    dsimp only
    rw [if_pos rfl]
  | cons d ds ih =>
    intro h
    rw [List.cons_append, scanExact]
    cases ht : tagOf d.name with
    | none => exact ih (fun e he => h e (List.mem_cons_of_mem _ he))
    | some t =>
      have hne : t ≠ language := fun he => h d (List.mem_cons_self _ _) (by rw [ht, he])
      dsimp only
      rw [if_neg hne]
      exact ih (fun e he => h e (List.mem_cons_of_mem _ he))

/-- The auto-detect nested scan over a priority list whose first matching
tag is preceded only by tags matching no candidate. -/
theorem firstPriorityMatch_append (p : String) (ps2 : List String)
    (cands : List Candidate) (c : Candidate) (h2 : findByTag p cands = some c) :
    ∀ ps1 : List String, (∀ q ∈ ps1, findByTag q cands = none) →
    firstPriorityMatch (ps1 ++ p :: ps2) cands = some (p, c) := by
  intro ps1
  induction ps1 with
  | nil =>
    intro _
    rw [List.nil_append, firstPriorityMatch, h2]
  | cons q qs ih =>
    intro h1
    rw [List.cons_append, firstPriorityMatch, h1 q (List.mem_cons_self _ _)]
    exact ih (fun r hr => h1 r (List.mem_cons_of_mem _ hr))

/-- The auto-detect nested scan fails when no priority tag matches any
candidate. -/
theorem firstPriorityMatch_none (cands : List Candidate) :
    ∀ ps : List String, (∀ q ∈ ps, findByTag q cands = none) →
    firstPriorityMatch ps cands = none := by
  intro ps
  induction ps with
  | nil => intro _; rfl
  | cons q qs ih =>
    intro h
    rw [firstPriorityMatch, h q (List.mem_cons_self _ _)]
    exact ih (fun r hr => h r (List.mem_cons_of_mem _ hr))

/-- C1: for every input string, parse_srt_contents equals the reference
line-by-line normalization stated by the specification (discard blank,
digits-only and marker lines, keep trimmed lines, join by single newlines),
and the concrete SRT sample normalizes to its two text lines. -/
theorem C1_normalize_matches_reference :
    (∀ s : String, parse_srt_contents s = referenceNormalize s) ∧
      parse_srt_contents "1\n00:00:01,000 --> 00:00:02,000\nHello world\n\n2\n00:00:03,000 --> 00:00:04,000\nSecond line\n\n" = "Hello world\nSecond line" := by
  constructor
  · intro s
    show (⟨parseChars s.data⟩ : String) = _
    unfold referenceNormalize parseChars
    exact congrArg String.mk (congrArg joinNL (transcriptLines_eq_filterMap _))
  · decide

/-- C2: in specific-language mode, when the candidate with the requested
language tag exists in the candidate list, selection returns exactly that
candidate, with the returned tag equal to the request. -/
theorem C2_specific_exact_match (language : String) (files : List Candidate)
    (c : Candidate)
    (h : files.filter (fun f => decide (tagOf f.name = some language)) = [c]) :
    selectSubtitle language files = (language, some c) := by
  have hs : scanExact language files = some c := by
    rw [scanExact_eq_head_filter, h]
    rfl
  unfold selectSubtitle
  rw [hs]

/-- Witness for C2 at a concrete candidate list containing an exact match. -/
theorem C2_specific_exact_match_witness :
    selectSubtitle "en" [⟨"vid.fr.srt", "salut"⟩, ⟨"vid.en.srt", "hello"⟩]
      = ("en", some ⟨"vid.en.srt", "hello"⟩) :=
  C2_specific_exact_match "en" _ _ (by decide)

/-- C3: in auto-detect mode, selection takes the first match of the nested
scan of the priority list over the candidates; with no priority match it
falls back to the first candidate, tagged unknown when its tag cannot be
determined from its naming pattern; with priority en then fr over
candidates tagged fr and en it returns the en candidate. -/
theorem C3_auto_detect_selection :
    (selectAuto ["en", "fr"] [⟨"vid.fr.srt", "bonjour"⟩, ⟨"vid.en.srt", "hello"⟩]
        = ("en", some ⟨"vid.en.srt", "hello"⟩)) ∧
    (∀ (ps1 : List String) (p : String) (ps2 : List String)
        (cands : List Candidate) (c : Candidate),
        (∀ q ∈ ps1, findByTag q cands = none) → findByTag p cands = some c →
        selectAuto (ps1 ++ p :: ps2) cands = (p, some c)) ∧
    (∀ (ps : List String) (c : Candidate) (cs : List Candidate),
        (∀ q ∈ ps, findByTag q (c :: cs) = none) →
        selectAuto ps (c :: cs) = ((tagOf c.name).getD "unknown", some c)) := by
  refine ⟨by decide, ?_, ?_⟩
  · intro ps1 p ps2 cands c h1 h2
    unfold selectAuto
    rw [firstPriorityMatch_append p ps2 cands c h2 ps1 h1]
  · intro ps c cs h
    unfold selectAuto
    rw [firstPriorityMatch_none (c :: cs) ps h]

/-- Witness for C3 at a concrete fallback without a determinable tag. -/
theorem C3_auto_detect_selection_witness :
    selectAuto ["es"] [⟨"weird", "x"⟩] = ("unknown", some ⟨"weird", "x"⟩) :=
  C3_auto_detect_selection.2.2 ["es"] ⟨"weird", "x"⟩ [] (by decide)

/-- C4: in specific-language mode with a nonempty candidate list in which no
candidate bears the requested tag, selection falls back to the first
candidate in enumeration order and reports that candidate's own tag. -/
theorem C4_specific_fallback (language : String) (f : Candidate)
    (rest : List Candidate) (t : String)
    (hmiss : ∀ g ∈ f :: rest, tagOf g.name ≠ some language)
    (ht : tagOf f.name = some t) :
    selectSubtitle language (f :: rest) = (t, some f) := by
  unfold selectSubtitle
  rw [scanExact_none language _ hmiss]
  dsimp only
  rw [ht]
  rfl

/-- Witness for C4 at the concrete scenario of an es candidate under an en
request. -/
theorem C4_specific_fallback_witness :
    selectSubtitle "en" [⟨"vid.es.srt", "Hola"⟩]
      = ("es", some ⟨"vid.es.srt", "Hola"⟩) :=
  C4_specific_fallback "en" ⟨"vid.es.srt", "Hola"⟩ [] "es" (by decide) (by decide)

/-- C5: no line of the normalizer's output is blank, consists solely of
decimal digits, or contains the timestamp marker; and a genuine text line
that is purely numeric is silently dropped. -/
theorem C5_output_lines_clean :
    (∀ (s : String) (l : List Char),
      l ∈ pySplitlines (parse_srt_contents s).data →
      pyStrip l ≠ [] ∧ matchDigits l = false ∧ hasArrow l = false) ∧
      parse_srt_contents "Hello\n42\nworld" = "Hello\nworld" := by
  constructor
  · intro s l hl
    have hdata : (parse_srt_contents s).data = parseChars s.data := rfl
    rw [hdata, parseChars_lines] at hl
    obtain ⟨hs, hne, hd, ha, hb⟩ := keptLine_props s.data l hl
    refine ⟨?_, hd, ha⟩
    rw [hs]
    exact hne
  · decide

/-- Witness for C5 at a concrete output line. -/
theorem C5_output_lines_clean_witness :
    pyStrip ['H', 'i'] ≠ [] ∧ matchDigits ['H', 'i'] = false ∧
      hasArrow ['H', 'i'] = false :=
  C5_output_lines_clean.1 "Hi\n42" ['H', 'i'] (by decide)

/-- C6: the normalizer is idempotent: re-applying parse_srt_contents to its
own output changes nothing. -/
theorem C6_normalize_idempotent (s : String) :
    parse_srt_contents (parse_srt_contents s) = parse_srt_contents s := by
  show (⟨parseChars (parseChars s.data)⟩ : String) = ⟨parseChars s.data⟩
  exact congrArg String.mk (parseChars_idem s.data)

/-- C7: for an empty candidate set both the specific-language mode and the
auto-detect mode of selection return the empty, no-selection result. -/
theorem C7_empty_candidates_no_selection :
    (∀ language : String, selectSubtitle language [] = ("", none)) ∧
      ∀ priority : List String, selectAuto priority [] = ("", none) := by
  constructor
  · intro language
    rfl
  · intro priority
    unfold selectAuto
    rw [firstPriorityMatch_none [] priority (fun q _ => rfl)]

/-- C8: the normalizer is a total function degrading to the empty string:
it returns the empty string exactly when no text line survives the
filtering, and the empty input yields the empty output. -/
theorem C8_normalize_empty_iff :
    (∀ s : String, parse_srt_contents s = "" ↔
      transcriptLines (pySplitlines s.data) = []) ∧
      parse_srt_contents "" = "" := by
  constructor
  · intro s
    constructor
    · intro h
      apply joinNL_eq_nil
      · intro l hl
        exact (keptLine_props s.data l hl).2.1
      · exact congrArg String.data h
    · intro h
      show (⟨parseChars s.data⟩ : String) = ""
      unfold parseChars
      rw [h]
      rfl
  · rfl

/-- C9: selection is deterministic: equal requests over equal candidate
lists in the same enumeration order give equal selections, in both
specific-language and auto-detect mode. -/
theorem C9_select_deterministic (language1 language2 : String)
    (priority1 priority2 : List String) (files1 files2 : List Candidate)
    (hl : language1 = language2) (hp : priority1 = priority2)
    (hf : files1 = files2) :
    selectSubtitle language1 files1 = selectSubtitle language2 files2 ∧
      selectAuto priority1 files1 = selectAuto priority2 files2 := by
  subst hl
  subst hp
  subst hf
  exact ⟨rfl, rfl⟩

/-- Witness for C9 at concrete equal inputs. -/
theorem C9_select_deterministic_witness :
    selectSubtitle "fr" [⟨"v.fr.srt", "a"⟩] = selectSubtitle "fr" [⟨"v.fr.srt", "a"⟩] ∧
      selectAuto ["en"] [⟨"v.fr.srt", "a"⟩] = selectAuto ["en"] [⟨"v.fr.srt", "a"⟩] :=
  C9_select_deterministic "fr" "fr" ["en"] ["en"] [⟨"v.fr.srt", "a"⟩]
    [⟨"v.fr.srt", "a"⟩] rfl rfl rfl

/-- C10: in specific-language mode the exact-match scan returns the first
candidate with the requested tag in enumeration order, and a candidate whose
file name splits into fewer than three dot-separated parts is skipped by the
scan entirely. -/
theorem C10_first_match_and_short_names :
    (∀ (language : String) (pre : List Candidate) (c : Candidate)
      (post : List Candidate),
      (∀ d ∈ pre, tagOf d.name ≠ some language) → tagOf c.name = some language →
      selectSubtitle language (pre ++ c :: post) = (language, some c)) ∧
    (∀ (language : String) (d : Candidate) (rest : List Candidate),
      (splitDot d.name.data).length < 3 →
      scanExact language (d :: rest) = scanExact language rest) := by
  constructor
  · intro language pre c post hpre hc
    unfold selectSubtitle
    rw [scanExact_append language c post hc pre hpre]
  · intro language d rest hlen
    rw [scanExact]
    have hnone : tagOf d.name = none := by
      unfold tagOf
      rw [if_neg (by omega)]
    rw [hnone]

/-- Witness for C10 at a concrete list with two exact matches. -/
theorem C10_first_match_and_short_names_witness :
    selectSubtitle "en" [⟨"a.en.srt", "one"⟩, ⟨"b.en.srt", "two"⟩]
      = ("en", some ⟨"a.en.srt", "one"⟩) :=
  C10_first_match_and_short_names.1 "en" [] ⟨"a.en.srt", "one"⟩
    [⟨"b.en.srt", "two"⟩] (by decide) (by decide)
